import Mathlib

/-!
Verification of the text-processing core described by the repository's
specification (src/stringFx.go and spec.md).  Text values are modelled as
lists of byte values (`List Nat`, each element < 256 at the points where it
matters).  The UTF-8 decoder and encoder follow the acceptance table of the
Go `unicode/utf8` package that the source invokes (RuneCountInString,
Builder.WriteRune): 1-byte scalars 0x00–0x7F, 2-byte lead bytes 0xC2–0xDF,
3-byte lead bytes 0xE0–0xEF with the 0xE0/0xED special continuation ranges
excluding overlong forms and surrogates, 4-byte lead bytes 0xF0–0xF4 with the
0xF0/0xF4 special ranges.
-/

namespace StringFx

/-- A continuation byte: 0x80–0xBF. -/
def cont (b : Nat) : Bool := 0x80 ≤ b && b < 0xC0

/-- Allowed second byte of a 3-byte sequence, depending on the lead byte:
0xE0 requires 0xA0–0xBF (no overlong forms), 0xED requires 0x80–0x9F
(no surrogates), others require 0x80–0xBF. -/
def cont3 (b0 b1 : Nat) : Bool :=
  (if b0 == 0xE0 then 0xA0 else 0x80) ≤ b1 && b1 < (if b0 == 0xED then 0xA0 else 0xC0)

/-- Allowed second byte of a 4-byte sequence, depending on the lead byte:
0xF0 requires 0x90–0xBF (no overlong forms), 0xF4 requires 0x80–0x8F
(scalar values ≤ 0x10FFFF), others require 0x80–0xBF. -/
def cont4 (b0 b1 : Nat) : Bool :=
  (if b0 == 0xF0 then 0x90 else 0x80) ≤ b1 && b1 < (if b0 == 0xF4 then 0x90 else 0xC0)

/-- Decode the first scalar value of a byte list.  Returns the scalar value
and the number of bytes it occupies, or `none` when the list does not start
with a well-formed UTF-8 encoding. -/
def decodeOne (l : List Nat) : Option (Nat × Nat) :=
  match l with
  | [] => none
  | b0 :: rest =>
    if b0 < 0x80 then some (b0, 1)
    else
      match rest with
      | [] => none
      | b1 :: rest2 =>
        if 0xC2 ≤ b0 ∧ b0 < 0xE0 ∧ cont b1 then
          some ((b0 - 0xC0) * 0x40 + (b1 - 0x80), 2)
        else
          match rest2 with
          | [] => none
          | b2 :: rest3 =>
            if 0xE0 ≤ b0 ∧ b0 < 0xF0 ∧ cont3 b0 b1 ∧ cont b2 then
              some ((b0 - 0xE0) * 0x1000 + (b1 - 0x80) * 0x40 + (b2 - 0x80), 3)
            else
              match rest3 with
              | [] => none
              | b3 :: _ =>
                if 0xF0 ≤ b0 ∧ b0 < 0xF5 ∧ cont4 b0 b1 ∧ cont b2 ∧ cont b3 then
                  some ((b0 - 0xF0) * 0x40000 + (b1 - 0x80) * 0x1000
                        + (b2 - 0x80) * 0x40 + (b3 - 0x80), 4)
                else none

/-- Encode one Unicode scalar value to its UTF-8 byte form (the byte layout
produced by Go's `utf8.EncodeRune` for a valid scalar value). -/
def encodeUtf8 (v : Nat) : List Nat :=
  if v < 0x80 then [v]
  else if v < 0x800 then [0xC0 + v / 0x40, 0x80 + v % 0x40]
  else if v < 0x10000 then
    [0xE0 + v / 0x1000, 0x80 + v / 0x40 % 0x40, 0x80 + v % 0x40]
  else
    [0xF0 + v / 0x40000, 0x80 + v / 0x1000 % 0x40, 0x80 + v / 0x40 % 0x40, 0x80 + v % 0x40]

/-- Fuel-indexed full decoder producing the position-tagged
(byteOffset, scalarValue) pairs of the spec's CodepointView.  `off` is the
byte offset of the head of `l` in the original text; fuel at least the list
length makes the recursion total. -/
def decodeFrom : Nat → Nat → List Nat → Option (List (Nat × Nat))
  | _, _, [] => some []
  | 0, _, _ :: _ => none
  | fuel + 1, off, c :: rest =>
    match decodeOne (c :: rest) with
    | none => none
    | some (v, n) => (decodeFrom fuel (off + n) ((c :: rest).drop n)).map ((off, v) :: ·)

/-- Modelled from the spec: CodepointView.decode — the position-tagged
sequence of (byteOffset, scalarValue) pairs of a byte sequence, `none` when
the bytes are not valid UTF-8.  The source observes this decoding through
`utf8.RuneCountInString` and range iteration. -/
def codepointView (l : List Nat) : Option (List (Nat × Nat)) :=
  decodeFrom l.length 0 l

/-- A byte sequence is valid UTF-8 when it fully decodes. -/
def validUtf8 (l : List Nat) : Bool := (codepointView l).isSome

/-- Encoding a 2-byte decoded value reproduces the two bytes, and the value
is at least 0x80. -/
theorem encode_dec2 {b0 b1 : Nat} (h : 0xC2 ≤ b0 ∧ b0 < 0xE0 ∧ cont b1 = true) :
    encodeUtf8 ((b0 - 0xC0) * 0x40 + (b1 - 0x80)) = [b0, b1]
    ∧ 0x80 ≤ (b0 - 0xC0) * 0x40 + (b1 - 0x80) := by
  obtain ⟨hb0, hb0', hc⟩ := h
  simp only [cont, Bool.and_eq_true, decide_eq_true_eq] at hc
  have hge : ¬((b0 - 0xC0) * 0x40 + (b1 - 0x80) < 0x80) := by omega
  have hlt : (b0 - 0xC0) * 0x40 + (b1 - 0x80) < 0x800 := by omega
  have e1 : 0xC0 + ((b0 - 0xC0) * 0x40 + (b1 - 0x80)) / 0x40 = b0 := by omega
  have e2 : 0x80 + ((b0 - 0xC0) * 0x40 + (b1 - 0x80)) % 0x40 = b1 := by omega
  refine ⟨?_, by omega⟩
  simp only [encodeUtf8]
  rw [if_neg hge, if_pos hlt, e1, e2]

/-- Encoding a 3-byte decoded value reproduces the three bytes, and the value
is at least 0x80. -/
theorem encode_dec3 {b0 b1 b2 : Nat}
    (h : 0xE0 ≤ b0 ∧ b0 < 0xF0 ∧ cont3 b0 b1 = true ∧ cont b2 = true) :
    encodeUtf8 ((b0 - 0xE0) * 0x1000 + (b1 - 0x80) * 0x40 + (b2 - 0x80)) = [b0, b1, b2]
    ∧ 0x80 ≤ (b0 - 0xE0) * 0x1000 + (b1 - 0x80) * 0x40 + (b2 - 0x80) := by
  obtain ⟨hb0, hb0', hc3, hc⟩ := h
  simp only [cont, Bool.and_eq_true, decide_eq_true_eq] at hc
  have hb1 : 0x80 ≤ b1 ∧ b1 < 0xC0 ∧ (b0 = 0xE0 → 0xA0 ≤ b1) ∧ (b0 = 0xED → b1 < 0xA0) := by
    simp only [cont3, Bool.and_eq_true, decide_eq_true_eq] at hc3
    by_cases he : b0 = 0xE0 <;> by_cases hd : b0 = 0xED <;> simp [he, hd] at hc3 <;> omega
  have hge : ¬((b0 - 0xE0) * 0x1000 + (b1 - 0x80) * 0x40 + (b2 - 0x80) < 0x80) := by omega
  have hge' : ¬((b0 - 0xE0) * 0x1000 + (b1 - 0x80) * 0x40 + (b2 - 0x80) < 0x800) := by omega
  have hlt : (b0 - 0xE0) * 0x1000 + (b1 - 0x80) * 0x40 + (b2 - 0x80) < 0x10000 := by omega
  have e1 : 0xE0 + ((b0 - 0xE0) * 0x1000 + (b1 - 0x80) * 0x40 + (b2 - 0x80)) / 0x1000 = b0 := by
    omega
  have e2 : 0x80 + ((b0 - 0xE0) * 0x1000 + (b1 - 0x80) * 0x40 + (b2 - 0x80)) / 0x40 % 0x40
      = b1 := by omega
  have e3 : 0x80 + ((b0 - 0xE0) * 0x1000 + (b1 - 0x80) * 0x40 + (b2 - 0x80)) % 0x40 = b2 := by
    omega
  refine ⟨?_, by omega⟩
  simp only [encodeUtf8]
  rw [if_neg hge, if_neg hge', if_pos hlt, e1, e2, e3]

/-- Encoding a 4-byte decoded value reproduces the four bytes, and the value
is at least 0x80. -/
theorem encode_dec4 {b0 b1 b2 b3 : Nat}
    (h : 0xF0 ≤ b0 ∧ b0 < 0xF5 ∧ cont4 b0 b1 = true ∧ cont b2 = true ∧ cont b3 = true) :
    encodeUtf8 ((b0 - 0xF0) * 0x40000 + (b1 - 0x80) * 0x1000 + (b2 - 0x80) * 0x40 + (b3 - 0x80))
      = [b0, b1, b2, b3]
    ∧ 0x80 ≤ (b0 - 0xF0) * 0x40000 + (b1 - 0x80) * 0x1000 + (b2 - 0x80) * 0x40 + (b3 - 0x80) := by
  obtain ⟨hb0, hb0', hc4, hc, hc'⟩ := h
  simp only [cont, Bool.and_eq_true, decide_eq_true_eq] at hc hc'
  have hb1 : 0x80 ≤ b1 ∧ b1 < 0xC0 ∧ (b0 = 0xF0 → 0x90 ≤ b1) ∧ (b0 = 0xF4 → b1 < 0x90) := by
    simp only [cont4, Bool.and_eq_true, decide_eq_true_eq] at hc4
    by_cases he : b0 = 0xF0 <;> by_cases hd : b0 = 0xF4 <;> simp [he, hd] at hc4 <;> omega
  have hge : ¬((b0 - 0xF0) * 0x40000 + (b1 - 0x80) * 0x1000 + (b2 - 0x80) * 0x40 + (b3 - 0x80)
      < 0x80) := by omega
  have hge' : ¬((b0 - 0xF0) * 0x40000 + (b1 - 0x80) * 0x1000 + (b2 - 0x80) * 0x40 + (b3 - 0x80)
      < 0x800) := by omega
  have hge'' : ¬((b0 - 0xF0) * 0x40000 + (b1 - 0x80) * 0x1000 + (b2 - 0x80) * 0x40 + (b3 - 0x80)
      < 0x10000) := by omega
  have e1 : 0xF0 + ((b0 - 0xF0) * 0x40000 + (b1 - 0x80) * 0x1000 + (b2 - 0x80) * 0x40
      + (b3 - 0x80)) / 0x40000 = b0 := by omega
  have e2 : 0x80 + ((b0 - 0xF0) * 0x40000 + (b1 - 0x80) * 0x1000 + (b2 - 0x80) * 0x40
      + (b3 - 0x80)) / 0x1000 % 0x40 = b1 := by omega
  have e3 : 0x80 + ((b0 - 0xF0) * 0x40000 + (b1 - 0x80) * 0x1000 + (b2 - 0x80) * 0x40
      + (b3 - 0x80)) / 0x40 % 0x40 = b2 := by omega
  have e4 : 0x80 + ((b0 - 0xF0) * 0x40000 + (b1 - 0x80) * 0x1000 + (b2 - 0x80) * 0x40
      + (b3 - 0x80)) % 0x40 = b3 := by omega
  refine ⟨?_, by omega⟩
  simp only [encodeUtf8]
  rw [if_neg hge, if_neg hge', if_neg hge'', e1, e2, e3, e4]

/-- Key inversion for one decoding step: the encoder reproduces exactly the
consumed bytes, at least one and at most all available bytes are consumed,
and exactly one byte is consumed iff the scalar value is ASCII. -/
theorem decodeOne_spec {l : List Nat} {v n : Nat} (h : decodeOne l = some (v, n)) :
    encodeUtf8 v = l.take n ∧ 1 ≤ n ∧ n ≤ l.length ∧ (n = 1 ↔ v < 0x80) := by
  rcases l with _ | ⟨b0, _ | ⟨b1, _ | ⟨b2, _ | ⟨b3, rest⟩⟩⟩⟩
  · simp [decodeOne] at h
  · simp only [decodeOne] at h
    by_cases hb : b0 < 0x80
    · rw [if_pos hb] at h
      obtain ⟨rfl, rfl⟩ : b0 = v ∧ 1 = n := by simpa using h
      exact ⟨by simp [encodeUtf8, hb], by omega, by simp, by omega⟩
    · rw [if_neg hb] at h
      exact absurd h (by simp)
  · simp only [decodeOne] at h
    by_cases hb : b0 < 0x80
    · rw [if_pos hb] at h
      obtain ⟨rfl, rfl⟩ : b0 = v ∧ 1 = n := by simpa using h
      exact ⟨by simp [encodeUtf8, hb], by omega, by simp, by omega⟩
    · rw [if_neg hb] at h
      by_cases h2 : 0xC2 ≤ b0 ∧ b0 < 0xE0 ∧ cont b1 = true
      · rw [if_pos h2] at h
        obtain ⟨rfl, rfl⟩ : (b0 - 0xC0) * 0x40 + (b1 - 0x80) = v ∧ 2 = n := by simpa using h
        have he := encode_dec2 h2
        exact ⟨by rw [he.1]; rfl, by omega, by simp, by omega⟩
      · rw [if_neg h2] at h
        exact absurd h (by simp)
  · simp only [decodeOne] at h
    by_cases hb : b0 < 0x80
    · rw [if_pos hb] at h
      obtain ⟨rfl, rfl⟩ : b0 = v ∧ 1 = n := by simpa using h
      exact ⟨by simp [encodeUtf8, hb], by omega, by simp, by omega⟩
    · rw [if_neg hb] at h
      by_cases h2 : 0xC2 ≤ b0 ∧ b0 < 0xE0 ∧ cont b1 = true
      · rw [if_pos h2] at h
        obtain ⟨rfl, rfl⟩ : (b0 - 0xC0) * 0x40 + (b1 - 0x80) = v ∧ 2 = n := by simpa using h
        have he := encode_dec2 h2
        exact ⟨by rw [he.1]; rfl, by omega, by simp, by omega⟩
      · rw [if_neg h2] at h
        by_cases h3 : 0xE0 ≤ b0 ∧ b0 < 0xF0 ∧ cont3 b0 b1 = true ∧ cont b2 = true
        · rw [if_pos h3] at h
          obtain ⟨rfl, rfl⟩ :
              (b0 - 0xE0) * 0x1000 + (b1 - 0x80) * 0x40 + (b2 - 0x80) = v ∧ 3 = n := by
            simpa using h
          have he := encode_dec3 h3
          exact ⟨by rw [he.1]; rfl, by omega, by simp, by omega⟩
        · rw [if_neg h3] at h
          exact absurd h (by simp)
  · simp only [decodeOne] at h
    by_cases hb : b0 < 0x80
    · rw [if_pos hb] at h
      obtain ⟨rfl, rfl⟩ : b0 = v ∧ 1 = n := by simpa using h
      exact ⟨by simp [encodeUtf8, hb], by omega, by simp, by omega⟩
    · rw [if_neg hb] at h
      by_cases h2 : 0xC2 ≤ b0 ∧ b0 < 0xE0 ∧ cont b1 = true
      · rw [if_pos h2] at h
        obtain ⟨rfl, rfl⟩ : (b0 - 0xC0) * 0x40 + (b1 - 0x80) = v ∧ 2 = n := by simpa using h
        have he := encode_dec2 h2
        exact ⟨by rw [he.1]; rfl, by omega, by simp, by omega⟩
      · rw [if_neg h2] at h
        by_cases h3 : 0xE0 ≤ b0 ∧ b0 < 0xF0 ∧ cont3 b0 b1 = true ∧ cont b2 = true
        · rw [if_pos h3] at h
          obtain ⟨rfl, rfl⟩ :
              (b0 - 0xE0) * 0x1000 + (b1 - 0x80) * 0x40 + (b2 - 0x80) = v ∧ 3 = n := by
            simpa using h
          have he := encode_dec3 h3
          exact ⟨by rw [he.1]; rfl, by omega, by simp, by omega⟩
        · rw [if_neg h3] at h
          by_cases h4 : 0xF0 ≤ b0 ∧ b0 < 0xF5 ∧ cont4 b0 b1 = true ∧ cont b2 = true
              ∧ cont b3 = true
          · rw [if_pos h4] at h
            obtain ⟨rfl, rfl⟩ :
                (b0 - 0xF0) * 0x40000 + (b1 - 0x80) * 0x1000 + (b2 - 0x80) * 0x40 + (b3 - 0x80)
                  = v ∧ 4 = n := by simpa using h
            have he := encode_dec4 h4
            exact ⟨by rw [he.1]; simp [List.take], by omega, by simp, by omega⟩
          · rw [if_neg h4] at h
            exact absurd h (by simp)

/-- Decoding with enough fuel and re-encoding every emitted scalar value
reproduces the input bytes. -/
theorem decodeFrom_roundtrip : ∀ (fuel off : Nat) (l : List Nat) (pairs : List (Nat × Nat)),
    l.length ≤ fuel → decodeFrom fuel off l = some pairs →
    (pairs.map fun p => encodeUtf8 p.2).flatten = l := by
  intro fuel
  induction fuel with
  | zero =>
    intro off l pairs hlen h
    rcases l with _ | ⟨c, rest⟩
    · simp only [decodeFrom, Option.some.injEq] at h
      subst h; simp
    · simp at hlen
  | succ fuel ih =>
    intro off l pairs hlen h
    rcases l with _ | ⟨c, rest⟩
    · simp only [decodeFrom, Option.some.injEq] at h
      subst h; simp
    · simp only [decodeFrom] at h
      cases hd : decodeOne (c :: rest) with
      | none => rw [hd] at h; simp at h
      | some vn =>
        obtain ⟨v, n⟩ := vn
        rw [hd] at h
        simp only [Option.map_eq_some'] at h
        obtain ⟨pairs', hp, rfl⟩ := h
        obtain ⟨henc, hn1, hnle, -⟩ := decodeOne_spec hd
        have hlen' : ((c :: rest).drop n).length ≤ fuel := by
          simp only [List.length_drop, List.length_cons] at *
          omega
        have hjoin := ih (off + n) ((c :: rest).drop n) pairs' hlen' hp
        simp only [List.map_cons, List.flatten_cons]
        rw [hjoin, henc]
        exact List.take_append_drop n (c :: rest)

/-- Decoding with enough fuel yields at most as many pairs as bytes, with
equality exactly when every decoded scalar value is ASCII. -/
theorem decodeFrom_length : ∀ (fuel off : Nat) (l : List Nat) (pairs : List (Nat × Nat)),
    l.length ≤ fuel → decodeFrom fuel off l = some pairs →
    pairs.length ≤ l.length ∧ (pairs.length = l.length ↔ ∀ p ∈ pairs, p.2 < 0x80) := by
  intro fuel
  induction fuel with
  | zero =>
    intro off l pairs hlen h
    rcases l with _ | ⟨c, rest⟩
    · simp only [decodeFrom, Option.some.injEq] at h
      subst h; simp
    · simp at hlen
  | succ fuel ih =>
    intro off l pairs hlen h
    rcases l with _ | ⟨c, rest⟩
    · simp only [decodeFrom, Option.some.injEq] at h
      subst h; simp
    · simp only [decodeFrom] at h
      cases hd : decodeOne (c :: rest) with
      | none => rw [hd] at h; simp at h
      | some vn =>
        obtain ⟨v, n⟩ := vn
        rw [hd] at h
        simp only [Option.map_eq_some'] at h
        obtain ⟨pairs', hp, rfl⟩ := h
        obtain ⟨-, hn1, hnle, hiff⟩ := decodeOne_spec hd
        have hlen' : ((c :: rest).drop n).length ≤ fuel := by
          simp only [List.length_drop, List.length_cons] at *
          omega
        obtain ⟨ih1, ih2⟩ := ih (off + n) ((c :: rest).drop n) pairs' hlen' hp
        rw [List.length_drop] at ih1 ih2
        simp only [List.length_cons, List.mem_cons, forall_eq_or_imp] at *
        constructor
        · omega
        · constructor
          · intro hEq
            have hn : n = 1 := by omega
            refine ⟨hiff.mp hn, ih2.mp ?_⟩
            omega
          · rintro ⟨hv, hall⟩
            have hn : n = 1 := hiff.mpr hv
            have := ih2.mpr hall
            omega

/-- The UTF-8 encoding of a scalar value is a single byte iff the value is
ASCII (below 0x80). -/
theorem encodeUtf8_length_one {v : Nat} : (encodeUtf8 v).length = 1 ↔ v < 0x80 := by
  unfold encodeUtf8
  split_ifs <;> simp_all

/-- C1: For every valid UTF-8 byte sequence B, decoding B into its sequence
of (byteOffset, scalarValue) pairs and then re-encoding each emitted scalar
value to UTF-8 and concatenating the encodings in emission order reproduces
exactly B. -/
theorem decode_encode_roundtrip (B : List Nat) (pairs : List (Nat × Nat))
    (h : codepointView B = some pairs) :
    (pairs.map fun p => encodeUtf8 p.2).flatten = B :=
  decodeFrom_roundtrip B.length 0 B pairs (le_refl _) h

/-- Witness for C1 on the two-scalar text "Hé" = [0x48, 0xC3, 0xA9]. -/
theorem decode_encode_roundtrip_witness :
    codepointView [72, 195, 169] = some [(0, 72), (1, 233)]
    ∧ (([(0, 72), (1, 233)] : List (Nat × Nat)).map fun p => encodeUtf8 p.2).flatten
        = [72, 195, 169] :=
  ⟨rfl, decode_encode_roundtrip [72, 195, 169] [(0, 72), (1, 233)] rfl⟩

/-- C2: For every valid UTF-8 byte sequence, the number of decoded scalar
values is at most the byte length, with equality iff every scalar value
encodes to a single byte (ASCII-only content). -/
theorem codepoint_count_le (B : List Nat) (pairs : List (Nat × Nat))
    (h : codepointView B = some pairs) :
    pairs.length ≤ B.length
    ∧ (pairs.length = B.length ↔ ∀ p ∈ pairs, (encodeUtf8 p.2).length = 1) := by
  obtain ⟨h1, h2⟩ := decodeFrom_length B.length 0 B pairs (le_refl _) h
  refine ⟨h1, h2.trans ?_⟩
  constructor <;> intro hall p hp
  · exact encodeUtf8_length_one.mpr (hall p hp)
  · exact encodeUtf8_length_one.mp (hall p hp)

/-- Witness for C2 on "Hé" = [0x48, 0xC3, 0xA9]: 2 scalar values, 3 bytes. -/
theorem codepoint_count_le_witness :
    codepointView [72, 195, 169] = some [(0, 72), (1, 233)]
    ∧ ([(0, 72), (1, 233)] : List (Nat × Nat)).length ≤ ([72, 195, 169] : List Nat).length
    ∧ (([(0, 72), (1, 233)] : List (Nat × Nat)).length = ([72, 195, 169] : List Nat).length
        ↔ ∀ p ∈ ([(0, 72), (1, 233)] : List (Nat × Nat)), (encodeUtf8 p.2).length = 1) :=
  ⟨rfl, codepoint_count_le [72, 195, 169] [(0, 72), (1, 233)] rfl⟩

/-! ## Segmenter: split, join, replace, count, repeat -/

/-- Modelled from the spec: the error taxonomy of §7 — `EncodingError`,
`InvalidArgument`, `PatternSyntaxError`, each reported to the immediate
caller as an explicit failure result. -/
inductive Err where
  | encodingError
  | invalidArgument
  | patternSyntaxError
deriving DecidableEq

/-- Fuel-indexed non-overlapping leftmost split on the non-empty separator
`a :: sep'`: at a separator occurrence the scan resumes immediately after
the matched span (the scan discipline of Go `strings.Split`, which the
source calls).  With fuel at least the text length the fallback branches
are unreachable. -/
def splitFuel (a : Nat) (sep' : List Nat) : Nat → List Nat → List (List Nat)
  | _, [] => [[]]
  | 0, s => [s]
  | fuel + 1, c :: rest =>
    if (a :: sep').isPrefixOf (c :: rest) then
      [] :: splitFuel a sep' fuel (rest.drop sep'.length)
    else
      match splitFuel a sep' fuel rest with
      | [] => [[c]]
      | h :: t => (c :: h) :: t

/-- Modelled from the spec: Segmenter.split — splits on every
non-overlapping occurrence of the separator; an empty separator is a
configuration error (`InvalidArgument`); consecutive separators yield empty
elements (no implicit filtering). -/
def split (text sep : List Nat) : Except Err (List (List Nat)) :=
  match sep with
  | [] => .error .invalidArgument
  | a :: sep' => .ok (splitFuel a sep' text.length text)

/-- Modelled from the spec: Segmenter.join — interleaves the separator
between consecutive parts (the semantics of Go `strings.Join`, which the
source calls). -/
def join (parts : List (List Nat)) (sep : List Nat) : List Nat :=
  match parts with
  | [] => []
  | [p] => p
  | p :: ps => p ++ sep ++ join ps sep

theorem join_cons_cons (p q : List Nat) (ps : List (List Nat)) (sep : List Nat) :
    join (p :: q :: ps) sep = p ++ sep ++ join (q :: ps) sep := rfl

theorem splitFuel_ne_nil (a : Nat) (sep' : List Nat) (fuel : Nat) (s : List Nat) :
    splitFuel a sep' fuel s ≠ [] := by
  rcases fuel with _ | fuel <;> rcases s with _ | ⟨c, rest⟩ <;> simp only [splitFuel] <;>
    try simp
  split
  · simp
  · split <;> simp

/-- Joining the parts of a fuel-indexed split with the same separator
reproduces the text. -/
theorem join_splitFuel (a : Nat) (sep' : List Nat) :
    ∀ (fuel : Nat) (s : List Nat), s.length ≤ fuel →
    join (splitFuel a sep' fuel s) (a :: sep') = s := by
  intro fuel
  induction fuel with
  | zero =>
    intro s hlen
    rcases s with _ | ⟨c, rest⟩
    · simp [splitFuel, join]
    · simp at hlen
  | succ fuel ih =>
    intro s hlen
    rcases s with _ | ⟨c, rest⟩
    · simp [splitFuel, join]
    · simp only [splitFuel]
      by_cases hp : (a :: sep').isPrefixOf (c :: rest) = true
      · rw [if_pos hp]
        have hpre : (a :: sep') <+: (c :: rest) := List.isPrefixOf_iff_prefix.mp hp
        obtain ⟨u, hu⟩ := hpre
        simp only [List.cons_append] at hu
        injection hu with ha hrest
        subst ha
        have hdrop : rest.drop sep'.length = u := by
          rw [← hrest]; exact List.drop_left sep' u
        obtain ⟨h1, t1, ht⟩ :
            ∃ h1 t1, splitFuel a sep' fuel (rest.drop sep'.length) = h1 :: t1 := by
          rcases hsp : splitFuel a sep' fuel (rest.drop sep'.length) with _ | ⟨h1, t1⟩
          · exact absurd hsp (splitFuel_ne_nil a sep' fuel _)
          · exact ⟨h1, t1, rfl⟩
        rw [ht, join_cons_cons, ← ht]
        have hlen2 : (rest.drop sep'.length).length ≤ fuel := by
          simp only [List.length_drop, List.length_cons] at *
          omega
        rw [ih _ hlen2, hdrop]
        simp [hrest]
      · rw [if_neg hp]
        obtain ⟨h1, t1, ht⟩ : ∃ h1 t1, splitFuel a sep' fuel rest = h1 :: t1 := by
          rcases hsp : splitFuel a sep' fuel rest with _ | ⟨h1, t1⟩
          · exact absurd hsp (splitFuel_ne_nil a sep' fuel _)
          · exact ⟨h1, t1, rfl⟩
        rw [ht]
        have hlen2 : rest.length ≤ fuel := by
          simp only [List.length_cons] at hlen
          omega
        have hjoin : join (h1 :: t1) (a :: sep') = rest := by
          rw [← ht]; exact ih rest hlen2
        rcases t1 with _ | ⟨q, t2⟩
        · simp only [join] at hjoin ⊢
          rw [hjoin]
        · rw [join_cons_cons]
          rw [join_cons_cons] at hjoin
          simp only [List.cons_append, List.append_assoc] at hjoin ⊢
          rw [hjoin]

/-- C4: For every text and every non-empty separator, join(split(text, sep),
sep) equals text; concretely split("a,b,,c", ",") yields ["a","b","","c"]
(consecutive separators yield empty elements, no implicit filtering), and
join(["a","b","","c"], ",") yields "a,b,,c". -/
theorem split_join_inverse :
    (∀ (text sep : List Nat) (parts : List (List Nat)), sep ≠ [] →
        split text sep = Except.ok parts → join parts sep = text)
    ∧ split [97, 44, 98, 44, 44, 99] [44] = Except.ok [[97], [98], [], [99]]
    ∧ join [[97], [98], [], [99]] [44] = [97, 44, 98, 44, 44, 99] := by
  refine ⟨?_, rfl, rfl⟩
  intro text sep parts hsep hsplit
  rcases sep with _ | ⟨a, sep'⟩
  · exact absurd rfl hsep
  · simp only [split, Except.ok.injEq] at hsplit
    subst hsplit
    exact join_splitFuel a sep' text.length text (le_refl _)

/-- Witness for C4 at text "a,b,,c" and separator ",". -/
theorem split_join_inverse_witness :
    join [[97], [98], [], [99]] [44] = [97, 44, 98, 44, 44, 99] :=
  split_join_inverse.1 [97, 44, 98, 44, 44, 99] [44] [[97], [98], [], [99]]
    (by decide) rfl

/-- C7: For every text, split called with an empty separator fails with an
InvalidArgument error and returns no result sequence. -/
theorem split_empty_separator (text : List Nat) :
    split text [] = Except.error Err.invalidArgument := rfl

/-- Fuel-indexed non-overlapping leftmost occurrence count of the non-empty
needle `a :: sep'`: after a match the scan resumes immediately after the
matched span (the scan discipline of Go `strings.Count`, which the source
calls). -/
def countOcc (a : Nat) (sep' : List Nat) : Nat → List Nat → Nat
  | _, [] => 0
  | 0, _ => 0
  | fuel + 1, c :: rest =>
    if (a :: sep').isPrefixOf (c :: rest) then
      1 + countOcc a sep' fuel (rest.drop sep'.length)
    else countOcc a sep' fuel rest

/-- Modelled from the spec: Segmenter.count_occurrences — counts
non-overlapping leftmost matches with the same scan discipline as replace;
an empty needle is a configuration error. -/
def count_occurrences (text needle : List Nat) : Except Err Nat :=
  match needle with
  | [] => .error .invalidArgument
  | a :: sep' => .ok (countOcc a sep' text.length text)

/-- Fuel-indexed non-overlapping leftmost replacement of the non-empty
needle `a :: old'` by `new`, up to `m` occurrences (`none` = all): after a
replacement the scan resumes immediately after the replaced span (the scan
discipline of Go `strings.Replace`, which the source calls). -/
def replaceFuel (a : Nat) (old' new : List Nat) : Nat → List Nat → Option Nat → List Nat
  | _, s, some 0 => s
  | _, [], _ => []
  | 0, s, _ => s
  | fuel + 1, c :: rest, m =>
    if (a :: old').isPrefixOf (c :: rest) then
      new ++ replaceFuel a old' new fuel (rest.drop old'.length) (m.map (· - 1))
    else c :: replaceFuel a old' new fuel rest m

/-- Modelled from the spec: Segmenter.replace — replaces up to maxCount
non-overlapping leftmost occurrences; maxCount = `none` replaces every
occurrence; an empty needle is a configuration error. -/
def replace (text old new : List Nat) (maxCount : Option Nat) : Except Err (List Nat) :=
  match old with
  | [] => .error .invalidArgument
  | a :: old' => .ok (replaceFuel a old' new text.length text maxCount)

/-- C3: replace and count_occurrences both use a non-overlapping leftmost
scan resuming after each matched span: replace("aaa", "aa", "b", all)
yields "ba", and count_occurrences("aaaa", "aa") yields 2, not 3. -/
theorem replace_count_non_overlapping :
    replace [97, 97, 97] [97, 97] [98] none = Except.ok [98, 97]
    ∧ count_occurrences [97, 97, 97, 97] [97, 97] = Except.ok 2 :=
  ⟨rfl, rfl⟩

/-- Modelled from the spec: Segmenter.repeat — concatenates n copies of the
text; n = 0 yields an empty Text; negative n is an `InvalidArgument` error
reported to the immediate caller.  (The source calls Go `strings.Repeat`
with a non-negative count.) -/
def repeatText (text : List Nat) (n : Int) : Except Err (List Nat) :=
  if n < 0 then .error .invalidArgument
  else .ok (List.replicate n.toNat text).flatten

/-- C8: repeat(text, n) concatenates n copies of the text: n = 0 yields an
empty Text, every negative n fails with an InvalidArgument error returned
to the immediate caller, and each increment of a non-negative count
prepends one more copy. -/
theorem repeat_spec (text : List Nat) (n : Int) :
    (n < 0 → repeatText text n = Except.error Err.invalidArgument)
    ∧ repeatText text 0 = Except.ok []
    ∧ (∀ (k : Nat) (r : List Nat), repeatText text (k : Int) = Except.ok r →
        repeatText text ((k : Int) + 1) = Except.ok (text ++ r)) := by
  refine ⟨?_, ?_, ?_⟩
  · intro h
    simp [repeatText, h]
  · simp [repeatText]
  · intro k r hk
    have hk0 : ¬((k : Int) < 0) := by omega
    have hk1 : ¬((k : Int) + 1 < 0) := by omega
    simp only [repeatText, if_neg hk0, Except.ok.injEq] at hk
    simp only [repeatText, if_neg hk1, Except.ok.injEq]
    have ht : ((k : Int) + 1).toNat = k + 1 := by omega
    have ht0 : ((k : Int)).toNat = k := by omega
    rw [ht0] at hk
    rw [ht, List.replicate_succ, List.flatten_cons, hk]

/-- Witness for C8 at text "a": repeat("a", -1) errors and
repeat("a", 1 + 1) = "aa". -/
theorem repeat_spec_witness :
    repeatText [97] (-1) = Except.error Err.invalidArgument
    ∧ repeatText [97] (((1 : Nat) : Int) + 1) = Except.ok [97, 97] :=
  ⟨(repeat_spec [97] (-1)).1 (by decide), (repeat_spec [97] 1).2.2 1 [97] rfl⟩

/-! ## PatternMatcher: find_all for the compiled pattern \d+ -/

/-- An ASCII digit byte, the byte class matched by \d. -/
def isDigitByte (b : Nat) : Bool := 0x30 ≤ b && b ≤ 0x39

/-- Fuel-indexed scan for non-overlapping leftmost maximal digit runs in
left-to-right order. -/
def findAllDigit : Nat → List Nat → List (List Nat)
  | _, [] => []
  | 0, _ => []
  | fuel + 1, c :: rest =>
    if isDigitByte c then
      (c :: rest.takeWhile isDigitByte) :: findAllDigit fuel (rest.dropWhile isDigitByte)
    else findAllDigit fuel rest

/-- Modelled from the spec: PatternMatcher.find_all applied to the compiled
pattern \d+ (the pattern the source compiles with regexp.MustCompile):
returns up to `limit` non-overlapping leftmost matches in left-to-right
order; `none` = unbounded returns all matches; zero matches yields an empty
sequence, never an error.  The matching engine itself is an external
capability per §1, so only this pattern's matching is modelled. -/
def find_all_digits (text : List Nat) (limit : Option Nat) : List (List Nat) :=
  match limit with
  | none => findAllDigit text.length text
  | some n => (findAllDigit text.length text).take n

/-- C5: find_all with the compiled pattern \d+ applied to
"I'm Batman 123 And 55" with an unbounded limit returns exactly
["123", "55"] in left-to-right order, and zero matches yields an empty
sequence rather than an error. -/
theorem find_all_digit_matches :
    find_all_digits [73, 39, 109, 32, 66, 97, 116, 109, 97, 110, 32,
        49, 50, 51, 32, 65, 110, 100, 32, 53, 53] none
      = [[49, 50, 51], [53, 53]]
    ∧ find_all_digits [73, 39, 109] none = [] :=
  ⟨rfl, rfl⟩

/-! ## Text and TextBuffer -/

/-- A Text value: an immutable byte sequence guaranteed to be valid UTF-8
(spec §3). -/
structure Text where
  bytes : List Nat
  valid : validUtf8 bytes = true

/-- Encoding of one scalar value for append_scalar; an invalid scalar value
(a surrogate or a value above 0x10FFFF) is encoded as the replacement
character U+FFFD, as Go's Builder.WriteRune does. -/
def encodeScalar (v : Nat) : List Nat :=
  if v < 0x110000 ∧ ¬(0xD800 ≤ v ∧ v < 0xE000) then encodeUtf8 v else encodeUtf8 0xFFFD

/-- Modelled from the spec: TextBuffer — a mutable owner of a byte store
with a logical length and a capacity; the source uses Go's strings.Builder
for this role. -/
structure TextBuffer where
  data : List Nat
  cap : Nat

/-- A freshly created, empty TextBuffer. -/
def TextBuffer.empty : TextBuffer := ⟨[], 0⟩

/-- Capacity after ensuring room for `n` more bytes on a buffer of capacity
`cap` holding `len` bytes: unchanged when the bytes fit, otherwise at least
doubled (the geometric growth policy of §4.2). -/
def growCap (cap len n : Nat) : Nat :=
  if len + n ≤ cap then cap else max (2 * cap) (len + n)

/-- Modelled from the spec: TextBuffer.append_bytes — appends raw bytes. -/
def append_bytes (b : TextBuffer) (frag : List Nat) : TextBuffer :=
  ⟨b.data ++ frag, growCap b.cap b.data.length frag.length⟩

/-- Modelled from the spec: TextBuffer.append_scalar — encodes one scalar
value to UTF-8 and appends it. -/
def append_scalar (b : TextBuffer) (v : Nat) : TextBuffer :=
  ⟨b.data ++ encodeScalar v, growCap b.cap b.data.length (encodeScalar v).length⟩

/-- Modelled from the spec: TextBuffer.append_text — appends another Text's
bytes verbatim. -/
def append_text (b : TextBuffer) (t : Text) : TextBuffer :=
  ⟨b.data ++ t.bytes, growCap b.cap b.data.length t.bytes.length⟩

/-- Modelled from the spec: TextBuffer.reset — sets the logical length to
zero; capacity is retained for reuse. -/
def TextBuffer.reset (b : TextBuffer) : TextBuffer := ⟨[], b.cap⟩

/-- Modelled from the spec: TextBuffer.snapshot — produces an immutable
Text view of the current contents without mutating the buffer; validates
UTF-8 and fails with `EncodingError` when the accumulated bytes are not
valid UTF-8. -/
def snapshot (b : TextBuffer) : Except Err Text :=
  if h : validUtf8 b.data = true then .ok ⟨b.data, h⟩ else .error .encodingError

/-- C6: materializing a Text from bytes that are not valid UTF-8 fails with
an EncodingError and produces no Text; in particular a snapshot of content
that arrived via append_bytes as a truncated multi-byte sequence fails
rather than producing a partially valid Text. -/
theorem snapshot_invalid_encoding (b : TextBuffer) (h : validUtf8 b.data = false) :
    snapshot b = Except.error Err.encodingError ∧ ∀ t : Text, snapshot b ≠ Except.ok t := by
  have h' : ¬(validUtf8 b.data = true) := by simp [h]
  refine ⟨by simp [snapshot, h'], ?_⟩
  intro t ht
  simp [snapshot, h'] at ht

/-- Witness for C6: appending the truncated multi-byte sequence [0xC3]
(the first byte of "é" without its continuation byte) and snapshotting
fails with EncodingError. -/
theorem snapshot_invalid_encoding_witness :
    validUtf8 (append_bytes TextBuffer.empty [195]).data = false
    ∧ snapshot (append_bytes TextBuffer.empty [195]) = Except.error Err.encodingError :=
  ⟨rfl, (snapshot_invalid_encoding (append_bytes TextBuffer.empty [195]) rfl).1⟩

/-- C9: reset sets the logical length to zero while leaving the buffer's
capacity unchanged, and appending never shrinks the capacity. -/
theorem reset_preserves_capacity (b : TextBuffer) :
    (b.reset).data.length = 0 ∧ (b.reset).cap = b.cap
    ∧ ∀ frag : List Nat, b.cap ≤ (append_bytes b frag).cap := by
  refine ⟨rfl, rfl, ?_⟩
  intro frag
  simp only [append_bytes, growCap]
  split
  · exact le_refl _
  · exact le_trans (by omega) (Nat.le_max_left _ _)

/-- One append operation on a TextBuffer (spec §4.2): a raw byte fragment,
a single scalar value, or another Text. -/
inductive BufOp where
  | bytes (frag : List Nat)
  | scalar (v : Nat)
  | text (t : Text)

/-- The bytes an append operation contributes to the buffer. -/
def opBytes : BufOp → List Nat
  | .bytes f => f
  | .scalar v => encodeScalar v
  | .text t => t.bytes

/-- Apply one append operation. -/
def applyOp (b : TextBuffer) : BufOp → TextBuffer
  | .bytes f => append_bytes b f
  | .scalar v => append_scalar b v
  | .text t => append_text b t

/-- Apply a sequence of append operations in order. -/
def applyOps (b : TextBuffer) (ops : List BufOp) : TextBuffer := ops.foldl applyOp b

/-- The contents after a sequence of appends is the previous contents
followed by each operation's bytes in order. -/
theorem applyOps_data : ∀ (ops : List BufOp) (b : TextBuffer),
    (applyOps b ops).data = b.data ++ (ops.map opBytes).flatten := by
  intro ops
  induction ops with
  | nil => intro b; simp [applyOps]
  | cons op ops ih =>
    intro b
    simp only [applyOps, List.foldl_cons] at *
    rw [ih (applyOp b op)]
    rcases op with f | v | t <;>
      simp [applyOp, append_bytes, append_scalar, append_text, opBytes, List.append_assoc]

/-- A successful snapshot returns exactly the buffer's current contents. -/
theorem snapshot_ok {b : TextBuffer} {t : Text} (h : snapshot b = Except.ok t) :
    t.bytes = b.data := by
  simp only [snapshot] at h
  split at h
  · cases h; rfl
  · cases h

/-- C10: for every TextBuffer and every sequence of append operations,
snapshot returns exactly the byte concatenation, in order, of all fragments
appended since the buffer's creation or its most recent reset; fragments
appended before a reset never appear in any later snapshot. -/
theorem snapshot_concatenation :
    (∀ (ops : List BufOp) (t : Text),
        snapshot (applyOps TextBuffer.empty ops) = Except.ok t →
        t.bytes = (ops.map opBytes).flatten)
    ∧ ∀ (b : TextBuffer) (ops : List BufOp) (t : Text),
        snapshot (applyOps b.reset ops) = Except.ok t →
        t.bytes = (ops.map opBytes).flatten := by
  constructor
  · intro ops t h
    rw [snapshot_ok h, applyOps_data ops TextBuffer.empty]
    rfl
  · intro b ops t h
    rw [snapshot_ok h, applyOps_data ops b.reset]
    rfl

/-- Witness for C10: appending the byte fragment "h" and the scalar value
U+00E9 and snapshotting yields exactly their concatenated encodings. -/
theorem snapshot_concatenation_witness :
    snapshot (applyOps TextBuffer.empty [BufOp.bytes [104], BufOp.scalar 233])
      = Except.ok (⟨[104, 195, 169], rfl⟩ : Text)
    ∧ (⟨[104, 195, 169], rfl⟩ : Text).bytes
        = ([BufOp.bytes [104], BufOp.scalar 233].map opBytes).flatten :=
  ⟨rfl, snapshot_concatenation.1 [BufOp.bytes [104], BufOp.scalar 233]
    ⟨[104, 195, 169], rfl⟩ rfl⟩

end StringFx
